import Mathlib

/-!
Verification development for the freeze snapshot store.

The definitions below are a shallow embedding of the Rust sources:
`src/snapshot.rs` (capture, compression, restore, temp-file handling,
exclusion rules), `src/db.rs` (metadata records, save/skip logic, orphan
reclamation, deletions), `src/utils.rs` (check classification, binary
sniffing, unified diff) and `src/mcp.rs` (checksum-prefix selector
resolution).  External crates (sha2, zstd, similar) are not part of the
repository; they enter as function parameters or as explicitly marked
model definitions.  Byte strings are lists of naturals, path and text
strings are lists of characters.
-/

/-- Byte strings: file contents, compressed blobs. -/
abbrev Bytes := List Nat

/-- Character strings: paths, checksums, dates, patterns, messages. -/
abbrev FName := List Char

/-- A filesystem path, split as Rust `Path` views it: the parent-directory
prefix (everything up to and including the last separator) and the final
component (`Path::file_name`, which contains no separator). -/
structure FPath where
  dir : FName
  base : FName
deriving DecidableEq, Repr

/-- Splits a file name at its last dot: `extSplit f = some (st, e)` when
`f = st ++ '.' :: e` and `e` contains no dot; `none` when `f` has no dot.
This is the primitive behind `Path::extension` / `Path::file_stem`. -/
def extSplit : FName → Option (FName × FName)
  | [] => none
  | c :: cs =>
    match extSplit cs with
    | some (st, e) => some (c :: st, e)
    | none => if c = '.' then some ([], cs) else none

/-- `Path::extension` on a file name: the part after the last dot, except
that a name whose only dot is leading (such as a hidden file) has no
extension. -/
def extOf (f : FName) : Option FName :=
  match extSplit f with
  | none => none
  | some ([], _) => none
  | some (_ :: _, e) => some e

/-- `Path::file_stem` on a file name: the part before the last dot when an
extension exists, otherwise the whole name. -/
def fileStem (f : FName) : FName :=
  match extSplit f with
  | none => f
  | some ([], _) => f
  | some (st, _) =>
    match st with
    | [] => f
    | _ :: _ => st

/-- `Path::with_extension`: replace the extension of the file name,
leaving the parent directory untouched. -/
def withExt (p : FPath) (e : FName) : FPath :=
  if e = [] then ⟨p.dir, fileStem p.base⟩
  else ⟨p.dir, fileStem p.base ++ '.' :: e⟩

/-- The literal extension used for temporary files. -/
def tmpName : FName := ['t', 'm', 'p']

/-- The literal extension used for compressed blobs. -/
def zstdName : FName := ['z', 's', 't', 'd']

/-- The blob storage directory (`~/.freeze/storage/` in the sources); kept
abstract as a fixed directory prefix. -/
def storageDirName : FName := "~/.freeze/storage/".toList

/-- A filesystem, as an association list from paths to byte contents.
`fsSet` keeps at most one entry per path. -/
abbrev FS := List (FPath × Bytes)

/-- Look up the content stored at a path. -/
def fsLookup (fs : FS) (p : FPath) : Option Bytes :=
  match fs.find? (fun e => e.1 = p) with
  | some e => some e.2
  | none => none

/-- Create or truncate-and-write a file (`File::create` followed by
writing): all previous entries for the path are replaced. -/
def fsSet (fs : FS) (p : FPath) (b : Bytes) : FS :=
  (p, b) :: fs.filter (fun e => ¬ e.1 = p)

/-- `fs::remove_file`, as the state change it causes; removing an absent
path changes nothing (the sources ignore that failure where it occurs). -/
def fsErase (fs : FS) (p : FPath) : FS :=
  fs.filter (fun e => ¬ e.1 = p)

/-- `fs::rename src dst`: moves the content at `src` to `dst`.  Renaming a
path onto itself succeeds and changes nothing (POSIX rename).  When `src`
is absent the call would fail; the flows modelled here only rename
existing files, and the absent case is modelled as no change. -/
def fsRename (fs : FS) (src dst : FPath) : FS :=
  match fsLookup fs src with
  | none => fs
  | some b => if src = dst then fs else fsSet (fsErase fs src) dst b

/-- `Snapshot::compress_and_copy` (src/snapshot.rs:403-429), final state of
a run that completes: write the compressed bytes to `dest.with_extension("tmp")`,
flush, rename the temp file onto `dest`, then the `TempFileGuard` drop
removes the temp path (a no-op after the rename moved it away).  The
compressor `z` stands for `zstd::stream::copy_encode` at level 3. -/
def compressAndCopy (z : Bytes → Bytes) (content : Bytes) (dest : FPath) (fs : FS) : FS :=
  let temp := withExt dest tmpName
  let fs1 := fsSet fs temp (z content)
  let fs2 := fsRename fs1 temp dest
  fsErase fs2 temp

/-- Every filesystem state `compress_and_copy` passes through, in order:
the temp file holding each successive prefix of the compressed stream
(creation is the empty prefix), then the state after the rename and the
guard drop.  Interrupting the process observes exactly one of the
non-final states. -/
def compressAndCopyStates (z : Bytes → Bytes) (content : Bytes) (dest : FPath) (fs : FS) : List FS :=
  let temp := withExt dest tmpName
  ((List.range ((z content).length + 1)).map (fun k => fsSet fs temp ((z content).take k)))
    ++ [compressAndCopy z content dest fs]

/-- `Snapshot::cleanup_temp_files` (src/snapshot.rs:371-388): on process
start, every entry of the storage directory whose extension is `tmp` is
removed (individual failures are only logged; here removal is modelled as
effective). -/
def cleanupTempFiles (fs : FS) : FS :=
  fs.filter (fun e => ¬ (e.1.dir = storageDirName ∧ extOf e.1.base = some tmpName))

/-- `Snapshot::decompress_and_copy` (src/snapshot.rs:444-468): read the
blob at `src`, decompress (`unz`, standing for `zstd::stream::copy_decode`,
which fails on corrupt input), write to `dest.with_extension("tmp")`,
rename onto `dest`, then the `TempFileGuard` drop removes the temp path —
also on the success path, after the rename.  `none` models an error
return (`?`). -/
def decompressAndCopy (unz : Bytes → Option Bytes) (src dest : FPath) (fs : FS) : Option FS :=
  let temp := withExt dest tmpName
  match fsLookup fs src with
  | none => none
  | some blob =>
    match unz blob with
    | none => none
    | some content =>
      let fs1 := fsSet fs temp content
      let fs2 := fsRename fs1 temp dest
      some (fsErase fs2 temp)

/-- One row of the `snapshots` table / the `Snapshot` struct.
`contentName` is the blob's file name inside the storage directory (the
stored `content_path` is the storage directory joined with this name, so
comparing full path strings and comparing names agree). -/
structure SnapRec where
  rid : Nat
  path : FName
  contentName : FName
  checksum : FName
  date : FName
  size : Nat
deriving DecidableEq, Repr

/-- The blob location `Snapshot::new` derives from a checksum:
`storage_dir.join(format!("{}.zstd", checksum))`. -/
def blobPath (checksum : FName) : FPath :=
  ⟨storageDirName, checksum ++ '.' :: zstdName⟩

/-- `Snapshot::new` (src/snapshot.rs:56-92) for a file at `p` whose bytes
are `content`: checksum first (the external SHA-256 is the parameter
`hash`), then compress into the blob store unless a blob for this
checksum already exists (deduplication).  Returns the new filesystem and
the built `Snapshot` value (its database id is assigned later). -/
def captureFile (hash : Bytes → FName) (z : Bytes → Bytes) (date : FName)
    (p : FPath) (content : Bytes) (fs : FS) : FS × SnapRec :=
  let checksum := hash content
  let cp := blobPath checksum
  let fs1 := if (fsLookup fs cp).isSome then fs else compressAndCopy z content cp fs
  (fs1, ⟨0, p.dir ++ p.base, cp.base, checksum, date, content.length⟩)

/-- `Snapshot::restore_snapshot` (src/snapshot.rs:254-267): ensure parent
directories exist (no-op here), then decompress when the stored blob name
has the `zstd` extension, else copy the legacy uncompressed blob
verbatim. -/
def restoreSnapshot (unz : Bytes → Option Bytes) (snap : SnapRec) (dest : FPath) (fs : FS) : Option FS :=
  let cp : FPath := ⟨storageDirName, snap.contentName⟩
  if extOf snap.contentName = some zstdName then
    decompressAndCopy unz cp dest fs
  else
    match fsLookup fs cp with
    | none => none
    | some b => some (fsSet fs dest b)

/-- `Database::save_snapshot` (src/db.rs:243-271): skip the insert when
some existing row has the same path and the same checksum; otherwise
insert a new row (its primary key is assigned by the store; modelled as
one past the current row count). -/
def saveSnapshot (recs : List SnapRec) (snap : SnapRec) : List SnapRec :=
  if recs.any (fun r => r.path = snap.path ∧ r.checksum = snap.checksum) then recs
  else recs ++ [{ snap with rid := recs.length + 1 }]

/-- Lexicographic strict order on character strings by code point, the
order `ORDER BY date` induces on RFC3339 timestamps. -/
def strLt : FName → FName → Bool
  | [], [] => false
  | [], _ :: _ => true
  | _ :: _, [] => false
  | a :: as, b :: bs =>
    if a.toNat < b.toNat then true
    else if b.toNat < a.toNat then false
    else strLt as bs

/-- The most recent record for a path: the row a `ORDER BY date DESC`
query returns first (maximal date among the rows for that path). -/
def mostRecentFor (recs : List SnapRec) (p : FName) : Option SnapRec :=
  (recs.filter (fun r => r.path = p)).foldl
    (fun acc r =>
      match acc with
      | none => some r
      | some m => if strLt m.date r.date then some r else some m)
    none

/-- The set of live blob names: `SELECT content_path FROM snapshots GROUP
BY content_path` (src/db.rs:67-73), as the list of referenced names. -/
def usedFilesOf (recs : List SnapRec) : List FName :=
  recs.map (fun r => r.contentName)

/-- `Database::cleanup_orphaned_files` (src/db.rs:66-87) over the storage
directory listing: a file whose name is referenced is kept; an
unreferenced file is removed — and a removal failure (`canRemove` false)
propagates through `?`, aborting the sweep.  `.ok` carries the resulting
listing; `.error` carries the failing name together with the listing at
the moment of failure (the failing file and everything after it still
present). -/
def cleanupOrphanedFiles (used : List FName) (canRemove : FName → Bool) :
    List (FName × Bytes) → Except (FName × List (FName × Bytes)) (List (FName × Bytes))
  | [] => .ok []
  | e :: es =>
    if e.1 ∈ used then
      match cleanupOrphanedFiles used canRemove es with
      | .ok st => .ok (e :: st)
      | .error (n, st) => .error (n, e :: st)
    else if canRemove e.1 then cleanupOrphanedFiles used canRemove es
    else .error (e.1, e :: es)

/-- `Database::delete_snapshot` (src/db.rs:651-656): delete the row with
the given id, then reclaim orphans unconditionally. -/
def deleteSnapshotById (canRemove : FName → Bool) (sid : Nat) (recs : List SnapRec)
    (storage : List (FName × Bytes)) :
    List SnapRec × Except (FName × List (FName × Bytes)) (List (FName × Bytes)) :=
  let recs2 := recs.filter (fun r => ¬ r.rid = sid)
  (recs2, cleanupOrphanedFiles (usedFilesOf recs2) canRemove storage)

/-- `Database::clear_snapshots` (src/db.rs:177-187): delete all rows with
the exact path; reclaim orphans only when at least one row was deleted. -/
def clearSnapshotsForPath (canRemove : FName → Bool) (p : FName) (recs : List SnapRec)
    (storage : List (FName × Bytes)) :
    List SnapRec × Except (FName × List (FName × Bytes)) (List (FName × Bytes)) :=
  let recs2 := recs.filter (fun r => ¬ r.path = p)
  if recs2.length = recs.length then (recs, .ok storage)
  else (recs2, cleanupOrphanedFiles (usedFilesOf recs2) canRemove storage)

/-- `Database::clear_directory_snapshots` (src/db.rs:34-58): delete rows
whose path is the directory itself or starts with the directory plus a
separator; reclaim orphans only when something was deleted. -/
def clearDirectorySnapshots (canRemove : FName → Bool) (dir : FName) (recs : List SnapRec)
    (storage : List (FName × Bytes)) :
    List SnapRec × Except (FName × List (FName × Bytes)) (List (FName × Bytes)) :=
  let recs2 := recs.filter (fun r => ¬ (r.path = dir ∨ (dir ++ ['/']).isPrefixOf r.path))
  if recs2.length = recs.length then (recs, .ok storage)
  else (recs2, cleanupOrphanedFiles (usedFilesOf recs2) canRemove storage)

/-- `Database::clear_all_snapshots` (src/db.rs:563-569): delete every
row; reclaim orphans only when the table was nonempty. -/
def clearAllSnapshots (canRemove : FName → Bool) (recs : List SnapRec)
    (storage : List (FName × Bytes)) :
    List SnapRec × Except (FName × List (FName × Bytes)) (List (FName × Bytes)) :=
  if recs.length = 0 then (recs, .ok storage)
  else ([], cleanupOrphanedFiles (usedFilesOf ([] : List SnapRec)) canRemove storage)

/-- The storage invariant of §3 of the design, in bounded form over the
storage-directory listing: every blob file is referenced by some record
and every record's blob exists. -/
def blobInvB (recs : List SnapRec) (storage : List (FName × Bytes)) : Prop :=
  (∀ e ∈ storage, ∃ r ∈ recs, r.contentName = e.1) ∧
    (∀ r ∈ recs, ∃ e ∈ storage, e.1 = r.contentName)

instance (recs : List SnapRec) (storage : List (FName × Bytes)) :
    Decidable (blobInvB recs storage) := by
  unfold blobInvB
  infer_instance

/-- One yield of the `WalkDir` iterator in `Snapshot::save_recursive`
(src/snapshot.rs:107-131), after the exclusion filter: the walker itself
can fail for an entry, and a file entry's capture can fail reading the
file. -/
inductive WalkEntry where
  | walkErr : FName → WalkEntry
  | dirEntry : FPath → WalkEntry
  | fileEntry : FPath → Except FName Bytes → WalkEntry
deriving Repr

/-- `Snapshot::save_recursive`'s walk loop: each walker error and each
failing file capture propagates through `?`, ending the walk at once;
successful file entries are captured (`Snapshot::new` then
`Database::save_snapshot`) and directories are skipped. -/
def saveRecursiveGo (hash : Bytes → FName) (z : Bytes → Bytes) (date : FName) :
    List WalkEntry → FS → List SnapRec → Except FName (FS × List SnapRec)
  | [], fs, recs => .ok (fs, recs)
  | .walkErr e :: _, _, _ => .error e
  | .dirEntry _ :: rest, fs, recs => saveRecursiveGo hash z date rest fs recs
  | .fileEntry _ (.error e) :: _, _, _ => .error e
  | .fileEntry p (.ok c) :: rest, fs, recs =>
    let res := captureFile hash z date p c fs
    saveRecursiveGo hash z date rest res.1 (saveSnapshot recs res.2)

/-- `str::contains` on strings: some suffix of `s` starts with `pat`. -/
def containsSub (s pat : FName) : Bool :=
  (List.range (s.length + 1)).any (fun i => pat.isPrefixOf (s.drop i))

/-- The three rule kinds stored in the `exclusions` table. -/
def dirKind : FName := "directory".toList

/-- Kind tag for extension rules. -/
def extKind : FName := "extension".toList

/-- Kind tag for file-name rules. -/
def fileKind : FName := "file".toList

/-- `Snapshot::is_excluded` (src/snapshot.rs:278-314).  `rules` is the
result of opening the database and reading the `exclusions` table —
`none` when either step fails, in which case the function returns false
(fail-open).  `isDir` is `path.is_dir()`.  A rule of unknown kind is
skipped; the loop returns true on the first matching rule. -/
def isExcluded (rules : Option (List (FName × FName))) (p : FPath) (isDir : Bool) : Bool :=
  match rules with
  | none => false
  | some rs =>
    rs.any (fun rule =>
      if rule.2 = dirKind then
        isDir && containsSub (p.dir ++ p.base) rule.1
      else if rule.2 = extKind then
        match extOf p.base with
        | some e => e = rule.1.dropWhile (fun c => c = '.')
        | none => false
      else if rule.2 = fileKind then
        ¬ p.base = [] ∧ p.base = rule.1
      else false)

/-- The exclusion predicate exactly as claim C7 words it: a directory
rule matches by substring containment alone, an extension rule after
stripping one leading dot, a file rule by base-name equality; empty or
unreadable rule sets are fail-open. -/
def isExcludedClaimC7 (rules : Option (List (FName × FName))) (p : FPath) (_isDir : Bool) : Bool :=
  match rules with
  | none => false
  | some rs =>
    rs.any (fun rule =>
      if rule.2 = dirKind then
        containsSub (p.dir ++ p.base) rule.1
      else if rule.2 = extKind then
        match extOf p.base with
        | some e =>
          e = (match rule.1 with
               | '.' :: rest => rest
               | other => other)
        | none => false
      else if rule.2 = fileKind then
        ¬ p.base = [] ∧ p.base = rule.1
      else false)

/-- The amended claim-C7 predicate: like the claim's wording, but a
directory rule additionally requires the path to be a directory, and an
extension pattern is normalized by stripping every leading dot. -/
def isExcludedAmendedC7 (rules : Option (List (FName × FName))) (p : FPath) (isDir : Bool) : Bool :=
  match rules with
  | none => false
  | some rs =>
    rs.any (fun rule =>
      if rule.2 = dirKind then
        isDir && containsSub (p.dir ++ p.base) rule.1
      else if rule.2 = extKind then
        match extOf p.base with
        | some e => e = rule.1.dropWhile (fun c => c = '.')
        | none => false
      else if rule.2 = fileKind then
        ¬ p.base = [] ∧ p.base = rule.1
      else false)

/-- Result of `check_single_file` (src/utils.rs:345-381). -/
inductive CheckResult where
  | noSnap : CheckResult
  | upToDate : CheckResult
  | modifiedR : CheckResult
deriving DecidableEq, Repr

/-- `check_single_file`: hash the live bytes, fetch the rows for the path
newest-first (`ORDER BY date DESC`; `snapshotsDesc` is that result), and
compare against the first row. -/
def checkSingleFile (hash : Bytes → FName) (snapshotsDesc : List SnapRec) (live : Bytes) : CheckResult :=
  match snapshotsDesc with
  | [] => .noSnap
  | latest :: _ => if latest.checksum = hash live then .upToDate else .modifiedR

/-- Per-file outcome inside `check_directory` (src/utils.rs:382-445). -/
inductive FileStatus where
  | okF : FileStatus
  | modifiedF : FileStatus
  | newF : FileStatus
deriving DecidableEq, Repr

/-- `HashMap` insertion: a later insert for the same key overwrites the
earlier one (lookup is positional-order independent, so the map is kept
with the newest insert in front). -/
def assocSet (m : List (FName × FName)) (k v : FName) : List (FName × FName) :=
  (k, v) :: m.filter (fun e => ¬ e.1 = k)

/-- `HashMap` lookup. -/
def assocLookup (m : List (FName × FName)) (k : FName) : Option FName :=
  match m.find? (fun e => e.1 = k) with
  | some e => some e.2
  | none => none

/-- The `snapshot_map` of `check_directory`: collect the
(path, checksum) pairs of `list_directory_snapshots` — rows ordered by
path then date descending — into a `HashMap`, so for a path with several
rows the row inserted last wins. -/
def snapshotMapOf (rows : List SnapRec) : List (FName × FName) :=
  rows.foldl (fun m r => assocSet m r.path r.checksum) []

/-- Summary `check_directory` prints. -/
structure DirCheckOut where
  statuses : List (FName × FileStatus)
  checked : Nat
  modifiedN : Nat
  newN : Nat
deriving DecidableEq, Repr

/-- `check_directory` (src/utils.rs:382-445): build `snapshot_map`, walk
the non-excluded files (`files` lists each walked file with its live
bytes), hash each and classify against the map; files with no entry are
new, files whose live hash differs from the mapped checksum are
modified. -/
def checkDirectory (hash : Bytes → FName) (rows : List SnapRec) (files : List (FName × Bytes)) : DirCheckOut :=
  let m := snapshotMapOf rows
  files.foldl
    (fun acc f =>
      match assocLookup m f.1 with
      | some saved =>
        if hash f.2 = saved then
          { acc with statuses := acc.statuses ++ [(f.1, .okF)], checked := acc.checked + 1 }
        else
          { acc with statuses := acc.statuses ++ [(f.1, .modifiedF)], checked := acc.checked + 1,
                     modifiedN := acc.modifiedN + 1 }
      | none =>
        { acc with statuses := acc.statuses ++ [(f.1, .newF)], newN := acc.newN + 1 })
    ⟨[], 0, 0, 0⟩

/-- Tags of the line-diff engine (the `similar` crate's `ChangeTag`). -/
inductive DTag where
  | eqT : DTag
  | delT : DTag
  | insT : DTag
deriving DecidableEq, Repr

/-- Count of equal lines a diff keeps, used to pick the larger common
subsequence between the two candidate branches. -/
def eqCount (d : List (DTag × FName)) : Nat :=
  (d.filter (fun op => op.1 = DTag.eqT)).length

/-- Modelled from the spec: the external `similar` crate's
`TextDiff::from_lines` op sequence, "line-oriented diff (classic
LCS-based or equivalent)" (§4.6).  Equal heads are consumed as equal
lines; otherwise the branch keeping the longer common subsequence is
taken.  The fuel makes the recursion structural; one unit is consumed
per line, so the summed input length always suffices and the zero-fuel
arm is unreachable from `diffOps`. -/
def diffOpsF : Nat → List FName → List FName → List (DTag × FName)
  | _, [], ys => ys.map (fun y => (DTag.insT, y))
  | _, x :: xs, [] => (x :: xs).map (fun a => (DTag.delT, a))
  | 0, _, _ => []
  | fuel + 1, x :: xs, y :: ys =>
    if x = y then (DTag.eqT, x) :: diffOpsF fuel xs ys
    else
      let d1 := diffOpsF fuel (x :: xs) ys
      let d2 := diffOpsF fuel xs (y :: ys)
      if eqCount d2 ≤ eqCount d1 then (DTag.insT, y) :: d1 else (DTag.delT, x) :: d2

/-- The op sequence of the line diff of two texts. -/
def diffOps (xs ys : List FName) : List (DTag × FName) :=
  diffOpsF (xs.length + ys.length) xs ys

/-- True when the op at index `j` is a change (insert or delete). -/
def changeAt (ops : List (DTag × FName)) (j : Nat) : Bool :=
  match ops[j]? with
  | some op => ¬ op.1 = DTag.eqT
  | none => false

/-- An op index is kept by `grouped_ops(n)` when it lies within `n`
positions of some change. -/
def nearChange (ops : List (DTag × FName)) (n i : Nat) : Bool :=
  (List.range ops.length).any (fun j => changeAt ops j && decide (j ≤ i + n) && decide (i ≤ j + n))

/-- Split a keep-flagged op list into its maximal runs of kept ops. -/
def groupsAux : List ((DTag × FName) × Bool) → List (List (DTag × FName))
  | [] => []
  | (op, b) :: rest =>
    let gs := groupsAux rest
    if b then
      match rest with
      | (_, true) :: _ =>
        match gs with
        | g :: gs2 => (op :: g) :: gs2
        | [] => [[op]]
      | _ => [op] :: gs
    else gs

/-- Modelled from the spec: `similar`'s `grouped_ops(n)` — the change
groups with up to `n` context lines around each change; no changes means
no groups. -/
def groupedOps (n : Nat) (ops : List (DTag × FName)) : List (List (DTag × FName)) :=
  groupsAux ((List.range ops.length).map (fun i => (ops.getD i (DTag.eqT, []), nearChange ops n i)))

/-- Split text into lines, keeping each terminating newline
(`TextDiff::from_lines` granularity). -/
def linesGo (cur rest : FName) : List FName :=
  match rest with
  | [] => if cur = [] then [] else [cur.reverse]
  | c :: cs => if c = '\n' then ((c :: cur).reverse) :: linesGo [] cs else linesGo (c :: cur) cs

/-- The lines of a text, newline terminators kept. -/
def linesOf (s : FName) : List FName :=
  linesGo [] s

/-- One rendered diff line: the sign character then the line text
(terminal coloring carries no text of its own and is omitted). -/
def renderOp (op : DTag × FName) : FName :=
  match op.1 with
  | DTag.delT => '-' :: op.2
  | DTag.insT => '+' :: op.2
  | DTag.eqT => ' ' :: op.2

/-- The rendered groups, separated by the `@@ ... @@` marker line before
every group but the first. -/
def renderGroups (idx : Nat) (gs : List (List (DTag × FName))) : FName :=
  match gs with
  | [] => []
  | g :: rest =>
    (if idx = 0 then [] else "@@ ... @@\n".toList)
      ++ (g.map renderOp).flatten
      ++ renderGroups (idx + 1) rest

/-- `compute_unified_diff` (src/utils.rs:660-685): the `---` and `+++`
header lines are pushed unconditionally, then each group of
`grouped_ops(3)` is rendered. -/
def computeUnifiedDiff (oldName newName oldT newT : FName) : FName :=
  "--- ".toList ++ oldName ++ ['\n'] ++ "+++ ".toList ++ newName ++ ['\n']
    ++ renderGroups 0 (groupedOps 3 (diffOps (linesOf oldT) (linesOf newT)))

/-- `is_binary` (src/utils.rs:301-303): a NUL byte within the first 512
bytes. -/
def isBinaryB (content : Bytes) : Bool :=
  (content.take 512).any (fun b => b = 0)

/-- `String::from_utf8_lossy` restricted to the byte-per-character
content these claims exercise. -/
def lossyText (content : Bytes) : FName :=
  content.map (fun b => Char.ofNat b)

/-- What `compare` (src/utils.rs:451-472) does once both sides are
resolved to bytes. -/
inductive CompareOut where
  | binaryOut : CompareOut
  | identicalMsg : CompareOut
  | diffOut : FName → CompareOut
deriving DecidableEq, Repr

/-- `compare`'s decision: binary sniff first, else compute the unified
diff and print the "Files are identical" message exactly when the diff
string is empty. -/
def compareBytes (leftName rightName : FName) (l r : Bytes) : CompareOut :=
  if isBinaryB l || isBinaryB r then .binaryOut
  else
    let d := computeUnifiedDiff leftName rightName (lossyText l) (lossyText r)
    if d = [] then .identicalMsg else .diffOut d

/-- The checksum-prefix resolution of `freeze_restore`
(src/mcp.rs:491-501): filter the path's snapshots to those whose checksum
starts with the given prefix; an empty filter is reported, otherwise the
first match's checksum is used with no multiplicity check.  With no
prefix the newest snapshot is used. -/
def mcpResolveRestoreTarget (snapshots : List SnapRec) (checksum : Option FName) : Option FName :=
  match checksum with
  | some cs =>
    let matching := snapshots.filter (fun s => cs.isPrefixOf s.checksum)
    match matching with
    | [] => none
    | m :: _ => some m.checksum
  | none =>
    match snapshots with
    | [] => none
    | s :: _ => some s.checksum

/-- The selector resolution of `freeze_compare` (src/mcp.rs:1076-1086):
the first snapshot whose checksum starts with the selector. -/
def mcpCompareFind (snapshots : List SnapRec) (cs : FName) : Option SnapRec :=
  snapshots.find? (fun s => cs.isPrefixOf s.checksum)

/-- Modelled from the spec: the external SHA-256 of the sha2 crate
(§4.1), as a deterministic digest usable in concrete witnesses — here a
decimal rendering of the bytes, prefixed so it is never empty. -/
def hashModel (content : Bytes) : FName :=
  'h' :: content.flatMap (fun b => '_' :: Nat.toDigits 10 b)

/-- Modelled from the spec: the external zstd compressor (§4.2), any
lossless codec; the witness instance stores the bytes verbatim. -/
def zModel (content : Bytes) : Bytes :=
  content

/-- Modelled from the spec: the external zstd decompressor, the inverse
of `zModel`; never fails on the blobs `zModel` wrote. -/
def unzModel (blob : Bytes) : Option Bytes :=
  some blob

theorem extSplit_none_of_noDot (f : FName) (h : ∀ c ∈ f, c ≠ '.') :
    extSplit f = none := by
  induction f with
  | nil => rfl
  | cons c cs ih =>
    have hc : c ≠ '.' := h c (List.mem_cons_self c cs)
    have hcs : extSplit cs = none := ih (fun x hx => h x (List.mem_cons_of_mem c hx))
    simp [extSplit, hcs, hc]

theorem extSplit_append (st e : FName) (he : ∀ c ∈ e, c ≠ '.') :
    extSplit (st ++ '.' :: e) = some (st, e) := by
  induction st with
  | nil => simp [extSplit, extSplit_none_of_noDot e he]
  | cons c cs ih => simp [extSplit, ih]

theorem extSplit_eq (f st e : FName) (h : extSplit f = some (st, e)) :
    f = st ++ '.' :: e := by
  induction f generalizing st e with
  | nil => simp [extSplit] at h
  | cons c cs ih =>
    simp only [extSplit] at h
    cases hcs : extSplit cs with
    | some pr =>
      obtain ⟨st', e'⟩ := pr
      rw [hcs] at h
      simp at h
      obtain ⟨h1, h2⟩ := h
      subst h1
      subst h2
      have hrec := ih st' e' hcs
      simp [hrec]
    | none =>
      rw [hcs] at h
      by_cases hc : c = '.'
      · subst hc
        simp at h
        obtain ⟨h1, h2⟩ := h
        subst h1
        subst h2
        simp
      · simp [hc] at h

theorem noDot_tmp : ∀ c ∈ tmpName, c ≠ '.' := by decide

theorem noDot_zstd : ∀ c ∈ zstdName, c ≠ '.' := by decide

theorem fileStem_ne_nil (f : FName) (h : f ≠ []) : fileStem f ≠ [] := by
  unfold fileStem
  cases hs : extSplit f with
  | none => exact h
  | some pr =>
    cases pr with
    | mk st e =>
      cases st with
      | nil => exact h
      | cons a as => simp

/-- The extension of a name rebuilt as `stem.e` is `e`, provided the stem
is nonempty and `e` contains no dot. -/
theorem extOf_rebuild (st e : FName) (hst : st ≠ []) (he : ∀ c ∈ e, c ≠ '.') :
    extOf (st ++ '.' :: e) = some e := by
  unfold extOf
  rw [extSplit_append st e he]
  cases st with
  | nil => exact absurd rfl hst
  | cons a as => simp

theorem withExt_tmp_ne (p : FPath) (h : extOf p.base ≠ some tmpName) :
    withExt p tmpName ≠ p := by
  intro heq
  have hbase : fileStem p.base ++ '.' :: tmpName = p.base := by
    have : (withExt p tmpName).base = p.base := by rw [heq]
    simpa [withExt, tmpName] using this
  by_cases hnil : fileStem p.base = []
  · rw [hnil] at hbase
    -- base itself is ".tmp", whose stem is the whole name, not []
    have hb : p.base = '.' :: tmpName := by
      rw [← hbase]
      rfl
    have hcontra : fileStem p.base = [] := hnil
    rw [hb] at hcontra
    exact absurd hcontra (by decide)
  · have : extOf p.base = some tmpName := by
      rw [← hbase]
      exact extOf_rebuild _ _ hnil noDot_tmp
    exact h this

theorem withExt_tmp_self (p : FPath) (h : extOf p.base = some tmpName) :
    withExt p tmpName = p := by
  unfold extOf at h
  cases hs : extSplit p.base with
  | none => rw [hs] at h; simp at h
  | some pr =>
    cases pr with
    | mk st e =>
      rw [hs] at h
      cases st with
      | nil => simp at h
      | cons a as =>
        simp at h
        have hb : p.base = (a :: as) ++ '.' :: e := extSplit_eq _ _ _ hs
        unfold withExt fileStem
        rw [hs]
        simp [tmpName] at h ⊢
        cases p with
        | mk d b =>
          simp at hb ⊢
          rw [hb, h]

theorem fsLookup_cons (e : FPath × Bytes) (fs : FS) (q : FPath) :
    fsLookup (e :: fs) q = if e.1 = q then some e.2 else fsLookup fs q := by
  by_cases h : e.1 = q
  · simp [fsLookup, List.find?, h]
  · simp [fsLookup, List.find?, h]

theorem fsLookup_fsSet_self (fs : FS) (p : FPath) (b : Bytes) :
    fsLookup (fsSet fs p b) p = some b := by
  simp [fsSet, fsLookup_cons]

theorem fsLookup_fsErase_self (fs : FS) (p : FPath) :
    fsLookup (fsErase fs p) p = none := by
  have h : (fsErase fs p).find? (fun e => e.1 = p) = none := by
    rw [List.find?_eq_none]
    intro e he
    have hm := List.of_mem_filter he
    simpa using hm
  simp [fsLookup, h]

theorem fsLookup_fsErase_ne (fs : FS) (p q : FPath) (h : ¬ q = p) :
    fsLookup (fsErase fs p) q = fsLookup fs q := by
  induction fs with
  | nil => rfl
  | cons e es ih =>
    by_cases he : e.1 = p
    · have hne : ¬ e.1 = q := fun h2 => h (h2 ▸ he)
      rw [show fsErase (e :: es) p = fsErase es p from by
        simp [fsErase, List.filter_cons, he]]
      rw [ih, fsLookup_cons]
      simp [hne]
    · rw [show fsErase (e :: es) p = e :: fsErase es p from by
        simp [fsErase, List.filter_cons, he]]
      rw [fsLookup_cons, fsLookup_cons, ih]

theorem fsLookup_fsSet_ne (fs : FS) (p q : FPath) (b : Bytes) (h : ¬ q = p) :
    fsLookup (fsSet fs p b) q = fsLookup fs q := by
  have h1 : ¬ p = q := fun h2 => h h2.symm
  rw [show fsSet fs p b = (p, b) :: fsErase fs p from rfl]
  rw [fsLookup_cons]
  simp only [h1, if_false]
  exact fsLookup_fsErase_ne fs p q h

theorem fsLookup_eq_none_iff (fs : FS) (q : FPath) :
    fsLookup fs q = none ↔ ∀ e ∈ fs, ¬ e.1 = q := by
  induction fs with
  | nil => simp [fsLookup]
  | cons e es ih =>
    rw [fsLookup_cons]
    by_cases he : e.1 = q
    · simp [he]
    · simp [he, ih]

theorem fsLookup_filter_none (fs : FS) (pr : FPath × Bytes → Bool) (q : FPath)
    (h : fsLookup fs q = none) : fsLookup (fs.filter pr) q = none := by
  rw [fsLookup_eq_none_iff] at h ⊢
  intro e he
  exact h e (List.mem_of_mem_filter he)

theorem cleanupTempFiles_no_tmp (fs : FS) :
    ∀ e ∈ cleanupTempFiles fs, ¬ (e.1.dir = storageDirName ∧ extOf e.1.base = some tmpName) := by
  intro e he
  have hm := List.of_mem_filter he
  simp at hm
  tauto

theorem cleanupTempFiles_lookup_none (fs : FS) (q : FPath) (h : fsLookup fs q = none) :
    fsLookup (cleanupTempFiles fs) q = none := by
  unfold cleanupTempFiles
  exact fsLookup_filter_none fs _ q h

theorem compressAndCopy_unfold (z : Bytes → Bytes) (c : Bytes) (dest : FPath) (fs : FS)
    (hext : ¬ extOf dest.base = some tmpName) :
    compressAndCopy z c dest fs =
      fsErase (fsSet (fsErase (fsSet fs (withExt dest tmpName) (z c)) (withExt dest tmpName)) dest (z c))
        (withExt dest tmpName) := by
  have htd : ¬ withExt dest tmpName = dest := withExt_tmp_ne dest hext
  simp only [compressAndCopy, fsRename, fsLookup_fsSet_self, htd, if_false]

theorem compressAndCopy_lookup_dest (z : Bytes → Bytes) (c : Bytes) (dest : FPath) (fs : FS)
    (hext : ¬ extOf dest.base = some tmpName) :
    fsLookup (compressAndCopy z c dest fs) dest = some (z c) := by
  rw [compressAndCopy_unfold z c dest fs hext]
  rw [fsLookup_fsErase_ne _ _ _ (fun h => withExt_tmp_ne dest hext h.symm)]
  exact fsLookup_fsSet_self _ _ _

theorem compressAndCopy_lookup_temp (z : Bytes → Bytes) (c : Bytes) (dest : FPath) (fs : FS)
    (hext : ¬ extOf dest.base = some tmpName) :
    fsLookup (compressAndCopy z c dest fs) (withExt dest tmpName) = none := by
  rw [compressAndCopy_unfold z c dest fs hext]
  exact fsLookup_fsErase_self _ _

theorem compressAndCopy_lookup_other (z : Bytes → Bytes) (c : Bytes) (dest q : FPath) (fs : FS)
    (hext : ¬ extOf dest.base = some tmpName)
    (hq1 : ¬ q = dest) (hq2 : ¬ q = withExt dest tmpName) :
    fsLookup (compressAndCopy z c dest fs) q = fsLookup fs q := by
  rw [compressAndCopy_unfold z c dest fs hext]
  rw [fsLookup_fsErase_ne _ _ _ hq2, fsLookup_fsSet_ne _ _ _ _ hq1,
    fsLookup_fsErase_ne _ _ _ hq2, fsLookup_fsSet_ne _ _ _ _ hq2]

theorem decompressAndCopy_ok (unz : Bytes → Option Bytes) (src dest : FPath) (fs : FS)
    (blob content : Bytes) (hs : fsLookup fs src = some blob) (hu : unz blob = some content)
    (hext : ¬ extOf dest.base = some tmpName) :
    ∃ fs2, decompressAndCopy unz src dest fs = some fs2 ∧
      fsLookup fs2 dest = some content ∧
      fsLookup fs2 (withExt dest tmpName) = none := by
  have htd : ¬ withExt dest tmpName = dest := withExt_tmp_ne dest hext
  have htd2 : ¬ dest = withExt dest tmpName := fun h => htd h.symm
  have hres : decompressAndCopy unz src dest fs =
      some (fsErase (fsSet (fsErase (fsSet fs (withExt dest tmpName) content) (withExt dest tmpName))
        dest content) (withExt dest tmpName)) := by
    simp only [decompressAndCopy, hs, hu, fsRename, fsLookup_fsSet_self, htd, if_false]
  refine ⟨_, hres, ?_, ?_⟩
  · rw [fsLookup_fsErase_ne _ _ _ htd2]
    exact fsLookup_fsSet_self _ _ _
  · exact fsLookup_fsErase_self _ _

theorem decompressAndCopy_tmp_dest (unz : Bytes → Option Bytes) (src dest : FPath) (fs : FS)
    (blob content : Bytes) (hs : fsLookup fs src = some blob) (hu : unz blob = some content)
    (hext : extOf dest.base = some tmpName) :
    decompressAndCopy unz src dest fs = some (fsErase (fsSet fs dest content) dest) ∧
      fsLookup (fsErase (fsSet fs dest content) dest) dest = none := by
  have ht : withExt dest tmpName = dest := withExt_tmp_self dest hext
  constructor
  · simp only [decompressAndCopy, hs, hu, ht, fsRename, fsLookup_fsSet_self]
    simp
  · exact fsLookup_fsErase_self _ _

theorem blobPath_ext_ne_tmp (cs : FName) : ¬ extOf (blobPath cs).base = some tmpName := by
  cases cs with
  | nil => decide
  | cons a as =>
    have h : extOf ((a :: as) ++ '.' :: zstdName) = some zstdName :=
      extOf_rebuild (a :: as) zstdName (by simp) noDot_zstd
    simp only [blobPath]
    rw [h]
    decide

theorem captureFile_blob (hash : Bytes → FName) (z : Bytes → Bytes) (date : FName)
    (p : FPath) (c : Bytes) (fs : FS)
    (hinit : fsLookup fs (blobPath (hash c)) = none ∨ fsLookup fs (blobPath (hash c)) = some (z c)) :
    fsLookup (captureFile hash z date p c fs).1 (blobPath (hash c)) = some (z c) := by
  cases hinit with
  | inl h =>
    simp only [captureFile, h, Option.isSome_none, Bool.false_eq_true, if_false]
    exact compressAndCopy_lookup_dest z c (blobPath (hash c)) fs (blobPath_ext_ne_tmp (hash c))
  | inr h =>
    simp [captureFile, h]

/-- C10: `decompress_and_copy` derives its temporary path by replacing the
destination's extension with `tmp`.  For a destination whose extension is
not `tmp`, a successful restore leaves the destination holding exactly
the decompressed bytes and no temp file; for a destination whose
extension is exactly `tmp`, the temp path coincides with the destination
and the cleanup guard deletes the freshly restored file, so the
destination holds nothing although the operation reports success. -/
theorem C10_restore_tmp_extension (unz : Bytes → Option Bytes) (snap : SnapRec) (dest : FPath)
    (fs : FS) (blob content : Bytes)
    (hz : extOf snap.contentName = some zstdName)
    (hs : fsLookup fs ⟨storageDirName, snap.contentName⟩ = some blob)
    (hu : unz blob = some content) :
    (¬ extOf dest.base = some tmpName →
      ∃ fs2, restoreSnapshot unz snap dest fs = some fs2 ∧
        fsLookup fs2 dest = some content ∧
        fsLookup fs2 (withExt dest tmpName) = none) ∧
    (extOf dest.base = some tmpName →
      ∃ fs2, restoreSnapshot unz snap dest fs = some fs2 ∧
        fsLookup fs2 dest = none) := by
  constructor
  · intro hext
    unfold restoreSnapshot
    rw [if_pos hz]
    exact decompressAndCopy_ok unz _ dest fs blob content hs hu hext
  · intro hext
    unfold restoreSnapshot
    rw [if_pos hz]
    obtain ⟨h1, h2⟩ := decompressAndCopy_tmp_dest unz _ dest fs blob content hs hu hext
    exact ⟨_, h1, h2⟩

/-- Witness for C10 at concrete inputs: restoring the blob `h.zstd`
holding bytes `[1, 2]` onto `/w/f.txt` succeeds and writes the bytes;
restoring it onto `/w/f.tmp` succeeds and leaves no file there. -/
theorem C10_restore_tmp_extension_witness :
    (∃ fs2, restoreSnapshot unzModel ⟨0, "/w/f.txt".toList, "h.zstd".toList, "h".toList, "d".toList, 2⟩
        ⟨"/w/".toList, "f.txt".toList⟩
        [(⟨storageDirName, "h.zstd".toList⟩, [1, 2])] = some fs2 ∧
      fsLookup fs2 ⟨"/w/".toList, "f.txt".toList⟩ = some [1, 2] ∧
      fsLookup fs2 (withExt ⟨"/w/".toList, "f.txt".toList⟩ tmpName) = none) ∧
    (∃ fs2, restoreSnapshot unzModel ⟨0, "/w/f.tmp".toList, "h.zstd".toList, "h".toList, "d".toList, 2⟩
        ⟨"/w/".toList, "f.tmp".toList⟩
        [(⟨storageDirName, "h.zstd".toList⟩, [1, 2])] = some fs2 ∧
      fsLookup fs2 ⟨"/w/".toList, "f.tmp".toList⟩ = none) :=
  ⟨(C10_restore_tmp_extension unzModel ⟨0, "/w/f.txt".toList, "h.zstd".toList, "h".toList, "d".toList, 2⟩
      ⟨"/w/".toList, "f.txt".toList⟩ [(⟨storageDirName, "h.zstd".toList⟩, [1, 2])] [1, 2] [1, 2]
      (by decide) (by decide) rfl).1 (by decide),
   (C10_restore_tmp_extension unzModel ⟨0, "/w/f.tmp".toList, "h.zstd".toList, "h".toList, "d".toList, 2⟩
      ⟨"/w/".toList, "f.tmp".toList⟩ [(⟨storageDirName, "h.zstd".toList⟩, [1, 2])] [1, 2] [1, 2]
      (by decide) (by decide) rfl).2 (by decide)⟩

/-- C1 counterexample: the round trip fails as universally stated.  The
file `/w/f.tmp` with content `[1, 2]` is captured and then restored to
its own path; the restore returns success, yet the destination holds no
file at all afterwards (the temp path coincides with the destination and
the cleanup guard deletes it), so no file with bytes `[1, 2]` is
written. -/
theorem C1_tmp_destination_counterexample :
    restoreSnapshot unzModel
        (captureFile hashModel zModel "d".toList ⟨"/w/".toList, "f.tmp".toList⟩ [1, 2] []).2
        ⟨"/w/".toList, "f.tmp".toList⟩
        (captureFile hashModel zModel "d".toList ⟨"/w/".toList, "f.tmp".toList⟩ [1, 2] []).1
      = some [(blobPath (hashModel [1, 2]), [1, 2])] ∧
    fsLookup [(blobPath (hashModel [1, 2]), [1, 2])] ⟨"/w/".toList, "f.tmp".toList⟩ = none := by
  constructor
  · decide
  · decide

/-- C1 (amended): for every file whose path's extension is not `tmp` and
whose content is the byte string `c`, capturing it (`Snapshot::new`,
compressing into the blob store via `compress_and_copy`) and restoring
that snapshot (`decompress_and_copy`) writes a file at the original path
whose bytes are exactly `c` — for every `c`, including content with NUL
bytes; `hash` and the codec stand for the external SHA-256 and zstd. -/
theorem C1_roundtrip_amended (hash : Bytes → FName) (z : Bytes → Bytes)
    (unz : Bytes → Option Bytes) (date : FName) (p : FPath) (c : Bytes) (fs : FS)
    (hzu : unz (z c) = some c)
    (hhash : ¬ hash c = [])
    (hinit : fsLookup fs (blobPath (hash c)) = none ∨ fsLookup fs (blobPath (hash c)) = some (z c))
    (hext : ¬ extOf p.base = some tmpName) :
    ∃ fs2, restoreSnapshot unz (captureFile hash z date p c fs).2 p
        (captureFile hash z date p c fs).1 = some fs2 ∧
      fsLookup fs2 p = some c := by
  have hblob : fsLookup (captureFile hash z date p c fs).1 (blobPath (hash c)) = some (z c) :=
    captureFile_blob hash z date p c fs hinit
  have hsnap : (captureFile hash z date p c fs).2.contentName = hash c ++ '.' :: zstdName := rfl
  unfold restoreSnapshot
  rw [hsnap, if_pos (extOf_rebuild _ _ hhash noDot_zstd)]
  obtain ⟨fs2, h1, h2, h3⟩ :=
    decompressAndCopy_ok unz ⟨storageDirName, hash c ++ '.' :: zstdName⟩ p
      (captureFile hash z date p c fs).1 (z c) c hblob hzu hext
  exact ⟨fs2, h1, h2⟩

/-- Witness for the amended C1 at concrete inputs: `/w/f.txt` with binary
content `[0, 7, 0]` (embedded NUL bytes) round-trips exactly through an
empty store. -/
theorem C1_roundtrip_amended_witness :
    ∃ fs2, restoreSnapshot unzModel
        (captureFile hashModel zModel "d".toList ⟨"/w/".toList, "f.txt".toList⟩ [0, 7, 0] []).2
        ⟨"/w/".toList, "f.txt".toList⟩
        (captureFile hashModel zModel "d".toList ⟨"/w/".toList, "f.txt".toList⟩ [0, 7, 0] []).1
      = some fs2 ∧
      fsLookup fs2 ⟨"/w/".toList, "f.txt".toList⟩ = some [0, 7, 0] :=
  C1_roundtrip_amended hashModel zModel unzModel "d".toList ⟨"/w/".toList, "f.txt".toList⟩
    [0, 7, 0] [] rfl (by decide) (Or.inl (by decide)) (by decide)

theorem cleanupTempFiles_lookup_tmp (fs : FS) (q : FPath)
    (h1 : q.dir = storageDirName) (h2 : extOf q.base = some tmpName) :
    fsLookup (cleanupTempFiles fs) q = none := by
  rw [fsLookup_eq_none_iff]
  intro e he heq
  have hclean := cleanupTempFiles_no_tmp fs e he
  exact hclean ⟨by rw [heq, h1], by rw [heq, h2]⟩

/-- C4: the blob write path writes the compressed bytes to a temporary
file with the `tmp` extension in the same directory as the final blob
location and renames it into place, so the final blob path holds nothing
until the rename installs the complete compressed content; and for every
state an interruption before the rename can leave behind, the startup
sweep removes every `tmp`-extension file of the storage directory and no
blob — corrupt or otherwise — sits at the final path. -/
theorem C4_atomic_temp_write (z : Bytes → Bytes) (c : Bytes) (dest : FPath) (fs : FS)
    (hdir : dest.dir = storageDirName)
    (hext : extOf dest.base = some zstdName)
    (hfresh : fsLookup fs dest = none) :
    (withExt dest tmpName).dir = dest.dir ∧
    extOf (withExt dest tmpName).base = some tmpName ∧
    (∀ s ∈ (compressAndCopyStates z c dest fs).dropLast,
      fsLookup s dest = none ∧
      fsLookup (cleanupTempFiles s) dest = none ∧
      fsLookup (cleanupTempFiles s) (withExt dest tmpName) = none ∧
      ∀ e ∈ cleanupTempFiles s, ¬ (e.1.dir = storageDirName ∧ extOf e.1.base = some tmpName)) ∧
    (compressAndCopyStates z c dest fs).getLast? = some (compressAndCopy z c dest fs) ∧
    fsLookup (compressAndCopy z c dest fs) dest = some (z c) ∧
    fsLookup (compressAndCopy z c dest fs) (withExt dest tmpName) = none := by
  have hbne : ¬ dest.base = [] := by
    intro h
    rw [h] at hext
    exact (by decide : ¬ extOf ([] : FName) = some zstdName) hext
  have hextne : ¬ extOf dest.base = some tmpName := by
    rw [hext]
    decide
  have htd : ¬ withExt dest tmpName = dest := withExt_tmp_ne dest hextne
  have hdne : ¬ dest = withExt dest tmpName := fun h => htd h.symm
  have hbase : (withExt dest tmpName).base = fileStem dest.base ++ '.' :: tmpName := by
    simp [withExt, tmpName]
  have htmpdir : (withExt dest tmpName).dir = dest.dir := by
    simp [withExt, tmpName]
  have htmpext : extOf (withExt dest tmpName).base = some tmpName := by
    rw [hbase]
    exact extOf_rebuild _ _ (fileStem_ne_nil dest.base hbne) noDot_tmp
  refine ⟨htmpdir, htmpext, ?_, ?_, ?_, ?_⟩
  · intro s hs
    rw [show (compressAndCopyStates z c dest fs).dropLast
          = (List.range ((z c).length + 1)).map
              (fun k => fsSet fs (withExt dest tmpName) ((z c).take k)) from by
        simp only [compressAndCopyStates]
        exact List.dropLast_concat] at hs
    obtain ⟨k, hk, rfl⟩ := List.mem_map.1 hs
    have hlook : fsLookup (fsSet fs (withExt dest tmpName) ((z c).take k)) dest = none := by
      rw [fsLookup_fsSet_ne _ _ _ _ hdne]
      exact hfresh
    refine ⟨hlook, ?_, ?_, ?_⟩
    · exact cleanupTempFiles_lookup_none _ _ hlook
    · exact cleanupTempFiles_lookup_tmp _ _ (htmpdir.trans hdir) htmpext
    · exact cleanupTempFiles_no_tmp _
  · simp [compressAndCopyStates]
  · exact compressAndCopy_lookup_dest z c dest fs hextne
  · exact compressAndCopy_lookup_temp z c dest fs hextne

/-- Witness for C4 at concrete inputs: the blob destination
`~/.freeze/storage/ab.zstd` over an empty store, content `[5]`. -/
theorem C4_atomic_temp_write_witness :
    extOf (blobPath "ab".toList).base = some zstdName ∧
    fsLookup ([] : FS) (blobPath "ab".toList) = none ∧
    fsLookup (compressAndCopy zModel [5] (blobPath "ab".toList) []) (blobPath "ab".toList)
      = some (zModel [5]) ∧
    fsLookup (compressAndCopy zModel [5] (blobPath "ab".toList) [])
      (withExt (blobPath "ab".toList) tmpName) = none :=
  ⟨by decide, by decide,
   (C4_atomic_temp_write zModel [5] (blobPath "ab".toList) [] (by decide) (by decide)
     (by decide)).2.2.2.2.1,
   (C4_atomic_temp_write zModel [5] (blobPath "ab".toList) [] (by decide) (by decide)
     (by decide)).2.2.2.2.2⟩

theorem filter_key_contra (fs : FS) (p : FPath) :
    (fs.filter (fun e => ¬ e.1 = p)).filter (fun e => e.1 = p) = [] := by
  induction fs with
  | nil => rfl
  | cons e es ih =>
    by_cases he : e.1 = p
    · simp [List.filter_cons, he, ih]
    · simp [List.filter_cons, he, ih]

theorem filter_key_fsSet_self (fs : FS) (p : FPath) (b : Bytes) :
    (fsSet fs p b).filter (fun e => e.1 = p) = [(p, b)] := by
  simp [fsSet, List.filter_cons, filter_key_contra]

theorem filter_key_fsErase_ne (fs : FS) (p q : FPath) (h : ¬ p = q) :
    (fsErase fs q).filter (fun e => e.1 = p) = fs.filter (fun e => e.1 = p) := by
  unfold fsErase
  rw [List.filter_filter]
  apply List.filter_congr
  intro e _
  by_cases hp : e.1 = p
  · have hq : ¬ e.1 = q := fun h2 => h (hp ▸ h2)
    simp [hp, hq]
    exact h
  · simp [hp]

theorem cleanup_all_ok (used : List FName) (es : List (FName × Bytes)) :
    cleanupOrphanedFiles used (fun _ => true) es
      = .ok (es.filter (fun e => decide (e.1 ∈ used))) := by
  induction es with
  | nil => rfl
  | cons e es ih =>
    by_cases he : e.1 ∈ used
    · simp [cleanupOrphanedFiles, he, ih, List.filter_cons]
    · simp [cleanupOrphanedFiles, he, ih, List.filter_cons]

theorem blobInv_filter (recs : List SnapRec) (storage : List (FName × Bytes)) (q : SnapRec → Bool)
    (hinv : blobInvB recs storage) :
    blobInvB (recs.filter q)
      (storage.filter (fun e => decide (e.1 ∈ usedFilesOf (recs.filter q)))) := by
  obtain ⟨h1, h2⟩ := hinv
  constructor
  · intro e he
    have hkeep := List.of_mem_filter he
    have hin : e.1 ∈ usedFilesOf (recs.filter q) := by simpa using hkeep
    obtain ⟨r, hr, hrn⟩ := List.mem_map.1 hin
    exact ⟨r, hr, hrn⟩
  · intro r hr
    obtain ⟨e, he, hen⟩ := h2 r (List.mem_of_mem_filter hr)
    refine ⟨e, List.mem_filter_of_mem he ?_, hen⟩
    have hin : e.1 ∈ usedFilesOf (recs.filter q) := List.mem_map.2 ⟨r, hr, hen.symm⟩
    simpa using hin

/-- C2: capturing two paths with byte-identical content stores exactly one
blob file, named by the shared fingerprint (the second capture changes
nothing); and each deletion operation — delete by id, by exact path, by
directory prefix, delete all — followed by its orphan reclamation
preserves the invariant that a blob file exists in the storage directory
exactly when a surviving record references its name, so deleting one of
two referencing records keeps the shared blob and deleting the last one
removes it. -/
theorem C2_dedup_and_orphan_invariant (hash : Bytes → FName) (z : Bytes → Bytes)
    (d1 d2 : FName) (p1 p2 : FPath) (c : Bytes) (fs : FS)
    (recs : List SnapRec) (storage : List (FName × Bytes)) (sid : Nat) (pth dir : FName)
    (hfresh : fsLookup fs (blobPath (hash c)) = none)
    (hinv : blobInvB recs storage) :
    ((captureFile hash z d2 p2 c (captureFile hash z d1 p1 c fs).1).1
        = (captureFile hash z d1 p1 c fs).1 ∧
      (((captureFile hash z d1 p1 c fs).1).filter
          (fun e => e.1 = blobPath (hash c))).length = 1) ∧
    (∀ st2, (deleteSnapshotById (fun _ => true) sid recs storage).2 = .ok st2 →
      blobInvB (deleteSnapshotById (fun _ => true) sid recs storage).1 st2) ∧
    (∀ st2, (clearSnapshotsForPath (fun _ => true) pth recs storage).2 = .ok st2 →
      blobInvB (clearSnapshotsForPath (fun _ => true) pth recs storage).1 st2) ∧
    (∀ st2, (clearDirectorySnapshots (fun _ => true) dir recs storage).2 = .ok st2 →
      blobInvB (clearDirectorySnapshots (fun _ => true) dir recs storage).1 st2) ∧
    (∀ st2, (clearAllSnapshots (fun _ => true) recs storage).2 = .ok st2 →
      blobInvB (clearAllSnapshots (fun _ => true) recs storage).1 st2) := by
  have hlook : fsLookup (captureFile hash z d1 p1 c fs).1 (blobPath (hash c)) = some (z c) :=
    captureFile_blob hash z d1 p1 c fs (Or.inl hfresh)
  refine ⟨⟨?_, ?_⟩, ?_, ?_, ?_, ?_⟩
  · have h2 : ∀ fsx, fsLookup fsx (blobPath (hash c)) = some (z c) →
        (captureFile hash z d2 p2 c fsx).1 = fsx := by
      intro fsx hx
      simp only [captureFile, hx, Option.isSome_some, if_true]
    exact h2 _ hlook
  · have hfs1 : (captureFile hash z d1 p1 c fs).1 = compressAndCopy z c (blobPath (hash c)) fs := by
      simp only [captureFile, hfresh, Option.isSome_none, Bool.false_eq_true, if_false]
    rw [hfs1, compressAndCopy_unfold z c _ fs (blobPath_ext_ne_tmp (hash c))]
    have hne : ¬ blobPath (hash c) = withExt (blobPath (hash c)) tmpName :=
      fun h2 => withExt_tmp_ne _ (blobPath_ext_ne_tmp (hash c)) h2.symm
    rw [filter_key_fsErase_ne _ _ _ hne, filter_key_fsSet_self]
    rfl
  · intro st2 hok
    rw [show (deleteSnapshotById (fun _ => true) sid recs storage).2
          = cleanupOrphanedFiles (usedFilesOf (recs.filter (fun r => ¬ r.rid = sid)))
              (fun _ => true) storage from rfl,
        cleanup_all_ok] at hok
    have hst : st2 = storage.filter
        (fun e => decide (e.1 ∈ usedFilesOf (recs.filter (fun r => ¬ r.rid = sid)))) := by
      have h2 := hok.symm
      simpa using h2
    subst hst
    exact blobInv_filter recs storage _ hinv
  · intro st2 hok
    by_cases hlen : (recs.filter (fun r => ¬ r.path = pth)).length = recs.length
    · simp only [clearSnapshotsForPath, hlen, if_true] at hok ⊢
      have hst : st2 = storage := by
        have h2 := hok.symm
        simpa using h2
      subst hst
      exact hinv
    · simp only [clearSnapshotsForPath, hlen, if_false] at hok ⊢
      rw [cleanup_all_ok] at hok
      have hst : st2 = storage.filter
          (fun e => decide (e.1 ∈ usedFilesOf (recs.filter (fun r => ¬ r.path = pth)))) := by
        have h2 := hok.symm
        simpa using h2
      subst hst
      exact blobInv_filter recs storage _ hinv
  · intro st2 hok
    by_cases hlen : (recs.filter
        (fun r => ¬ (r.path = dir ∨ (dir ++ ['/']).isPrefixOf r.path))).length = recs.length
    · simp only [clearDirectorySnapshots, hlen, if_true] at hok ⊢
      have hst : st2 = storage := by
        have h2 := hok.symm
        simpa using h2
      subst hst
      exact hinv
    · simp only [clearDirectorySnapshots, hlen, if_false] at hok ⊢
      rw [cleanup_all_ok] at hok
      have hst : st2 = storage.filter
          (fun e => decide (e.1 ∈ usedFilesOf (recs.filter
            (fun r => ¬ (r.path = dir ∨ (dir ++ ['/']).isPrefixOf r.path))))) := by
        have h2 := hok.symm
        simpa using h2
      subst hst
      exact blobInv_filter recs storage _ hinv
  · intro st2 hok
    by_cases hlen : recs.length = 0
    · simp only [clearAllSnapshots, hlen, if_true] at hok ⊢
      have hst : st2 = storage := by
        have h2 := hok.symm
        simpa using h2
      subst hst
      exact hinv
    · simp only [clearAllSnapshots, hlen, if_false] at hok ⊢
      rw [cleanup_all_ok] at hok
      have hst : st2 = storage.filter
          (fun e => decide (e.1 ∈ usedFilesOf ([] : List SnapRec))) := by
        have h2 := hok.symm
        simpa using h2
      subst hst
      constructor
      · intro e he
        have hkeep := List.of_mem_filter he
        simp [usedFilesOf] at hkeep
      · intro r hr
        simp at hr

/-- Witness for C2 at concrete inputs: two captures of `[1]` under
distinct paths over an empty store; then, over two records sharing the
blob `n.zstd`, deleting the path of one record keeps the shared blob and
deleting the remaining path's record removes it. -/
theorem C2_dedup_and_orphan_invariant_witness :
    ((captureFile hashModel zModel "2".toList ⟨"/b/".toList, "y".toList⟩ [1]
        (captureFile hashModel zModel "1".toList ⟨"/a/".toList, "x".toList⟩ [1] []).1).1
        = (captureFile hashModel zModel "1".toList ⟨"/a/".toList, "x".toList⟩ [1] []).1 ∧
      (((captureFile hashModel zModel "1".toList ⟨"/a/".toList, "x".toList⟩ [1] []).1).filter
          (fun e => e.1 = blobPath (hashModel [1]))).length = 1) ∧
    (clearSnapshotsForPath (fun _ => true) "/a/x".toList
        [⟨1, "/a/x".toList, "n.zstd".toList, "hh".toList, "d1".toList, 1⟩,
         ⟨2, "/b/y".toList, "n.zstd".toList, "hh".toList, "d2".toList, 1⟩]
        [("n.zstd".toList, [9])]).2 = .ok [("n.zstd".toList, [9])] ∧
    blobInvB (clearSnapshotsForPath (fun _ => true) "/a/x".toList
        [⟨1, "/a/x".toList, "n.zstd".toList, "hh".toList, "d1".toList, 1⟩,
         ⟨2, "/b/y".toList, "n.zstd".toList, "hh".toList, "d2".toList, 1⟩]
        [("n.zstd".toList, [9])]).1 [("n.zstd".toList, [9])] ∧
    (clearSnapshotsForPath (fun _ => true) "/b/y".toList
        [⟨2, "/b/y".toList, "n.zstd".toList, "hh".toList, "d2".toList, 1⟩]
        [("n.zstd".toList, [9])]).2 = .ok [] ∧
    blobInvB (clearSnapshotsForPath (fun _ => true) "/b/y".toList
        [⟨2, "/b/y".toList, "n.zstd".toList, "hh".toList, "d2".toList, 1⟩]
        [("n.zstd".toList, [9])]).1 [] :=
  ⟨(C2_dedup_and_orphan_invariant hashModel zModel "1".toList "2".toList
      ⟨"/a/".toList, "x".toList⟩ ⟨"/b/".toList, "y".toList⟩ [1] []
      [⟨1, "/a/x".toList, "n.zstd".toList, "hh".toList, "d1".toList, 1⟩,
       ⟨2, "/b/y".toList, "n.zstd".toList, "hh".toList, "d2".toList, 1⟩]
      [("n.zstd".toList, [9])] 1 "/a/x".toList "/".toList (by decide) (by decide)).1,
   rfl,
   (C2_dedup_and_orphan_invariant hashModel zModel "1".toList "2".toList
      ⟨"/a/".toList, "x".toList⟩ ⟨"/b/".toList, "y".toList⟩ [1] []
      [⟨1, "/a/x".toList, "n.zstd".toList, "hh".toList, "d1".toList, 1⟩,
       ⟨2, "/b/y".toList, "n.zstd".toList, "hh".toList, "d2".toList, 1⟩]
      [("n.zstd".toList, [9])] 1 "/a/x".toList "/".toList (by decide)
      (by decide)).2.2.1 [("n.zstd".toList, [9])] rfl,
   rfl,
   (C2_dedup_and_orphan_invariant hashModel zModel "1".toList "2".toList
      ⟨"/a/".toList, "x".toList⟩ ⟨"/b/".toList, "y".toList⟩ [1] []
      [⟨2, "/b/y".toList, "n.zstd".toList, "hh".toList, "d2".toList, 1⟩]
      [("n.zstd".toList, [9])] 1 "/b/y".toList "/".toList (by decide)
      (by decide)).2.2.1 [] rfl⟩

/-- C3 counterexample: two records for `/t/f` exist, fingerprints `h1`
(older) and `h2` (most recent).  Saving a snapshot with fingerprint `h1`
— which differs from the most recent record's fingerprint, so the claim
requires a new record — is a no-op in the code, because `save_snapshot`
matches against every existing row for the path, not only the newest. -/
theorem C3_older_fingerprint_counterexample :
    (mostRecentFor
        [⟨1, "/t/f".toList, "n1.zstd".toList, "h1".toList, "2024-01-14".toList, 3⟩,
         ⟨2, "/t/f".toList, "n2.zstd".toList, "h2".toList, "2024-01-15".toList, 3⟩]
        "/t/f".toList).map (fun r => r.checksum) = some "h2".toList ∧
    decide (("h1".toList : FName) = "h2".toList) = false ∧
    saveSnapshot
        [⟨1, "/t/f".toList, "n1.zstd".toList, "h1".toList, "2024-01-14".toList, 3⟩,
         ⟨2, "/t/f".toList, "n2.zstd".toList, "h2".toList, "2024-01-15".toList, 3⟩]
        ⟨0, "/t/f".toList, "n1.zstd".toList, "h1".toList, "2024-01-16".toList, 3⟩
      = [⟨1, "/t/f".toList, "n1.zstd".toList, "h1".toList, "2024-01-14".toList, 3⟩,
         ⟨2, "/t/f".toList, "n2.zstd".toList, "h2".toList, "2024-01-15".toList, 3⟩] := by
  refine ⟨by decide, by decide, by decide⟩

/-- C3 (amended): `save_snapshot` creates a new record exactly when no
existing record for the path carries the new snapshot's fingerprint; in
particular a fingerprint equal to the most recent record's is a no-op,
but so is a fingerprint equal to any older record's for that path. -/
theorem C3_save_snapshot_amended (recs : List SnapRec) (snap : SnapRec) :
    (saveSnapshot recs snap = recs ↔
      ∃ r ∈ recs, r.path = snap.path ∧ r.checksum = snap.checksum) ∧
    ((¬ ∃ r ∈ recs, r.path = snap.path ∧ r.checksum = snap.checksum) →
      saveSnapshot recs snap = recs ++ [{ snap with rid := recs.length + 1 }]) := by
  by_cases hc : recs.any (fun r => r.path = snap.path ∧ r.checksum = snap.checksum)
  · have hex : ∃ r ∈ recs, r.path = snap.path ∧ r.checksum = snap.checksum := by
      simpa using hc
    constructor
    · rw [show saveSnapshot recs snap = recs from by
        simp only [saveSnapshot, hc, if_true]]
      exact iff_of_true rfl hex
    · intro hniche
      exact absurd hex hniche
  · have hnex : ¬ ∃ r ∈ recs, r.path = snap.path ∧ r.checksum = snap.checksum := by
      simpa using hc
    have hsave : saveSnapshot recs snap = recs ++ [{ snap with rid := recs.length + 1 }] := by
      simp only [saveSnapshot, hc, Bool.false_eq_true, if_false]
    constructor
    · rw [hsave]
      constructor
      · intro h
        have hlen := congrArg List.length h
        simp at hlen
      · intro hex
        exact absurd hex hnex
    · intro _
      exact hsave

/-- Witness for the amended C3: saving fingerprint `h3`, carried by no
existing record for `/t/f`, appends exactly one new record. -/
theorem C3_save_snapshot_amended_witness :
    (¬ ∃ r ∈ [(⟨1, "/t/f".toList, "n1.zstd".toList, "h1".toList, "2024-01-14".toList, 3⟩ : SnapRec)],
        r.path = "/t/f".toList ∧ r.checksum = "h3".toList) ∧
    saveSnapshot [⟨1, "/t/f".toList, "n1.zstd".toList, "h1".toList, "2024-01-14".toList, 3⟩]
        ⟨0, "/t/f".toList, "n3.zstd".toList, "h3".toList, "2024-01-16".toList, 5⟩
      = [⟨1, "/t/f".toList, "n1.zstd".toList, "h1".toList, "2024-01-14".toList, 3⟩,
         ⟨2, "/t/f".toList, "n3.zstd".toList, "h3".toList, "2024-01-16".toList, 5⟩] :=
  ⟨by decide,
   (C3_save_snapshot_amended
      [⟨1, "/t/f".toList, "n1.zstd".toList, "h1".toList, "2024-01-14".toList, 3⟩]
      ⟨0, "/t/f".toList, "n3.zstd".toList, "h3".toList, "2024-01-16".toList, 5⟩).2 (by decide)⟩

/-- C5: with two snapshots of the same path whose fingerprints both start
with the selector `abc`, the mcp resolution picks the first match
silently — `freeze_restore` resolves to the first matching checksum and
`freeze_compare` finds the first matching snapshot — although a second,
distinct candidate also matches; neither return signals ambiguity. -/
theorem C5_silent_first_match :
    mcpResolveRestoreTarget
        [⟨1, "/t/f".toList, "n1.zstd".toList, "abc123".toList, "d2".toList, 3⟩,
         ⟨2, "/t/f".toList, "n2.zstd".toList, "abc999".toList, "d1".toList, 3⟩]
        (some "abc".toList) = some "abc123".toList ∧
    mcpCompareFind
        [⟨1, "/t/f".toList, "n1.zstd".toList, "abc123".toList, "d2".toList, 3⟩,
         ⟨2, "/t/f".toList, "n2.zstd".toList, "abc999".toList, "d1".toList, 3⟩]
        "abc".toList
      = some ⟨1, "/t/f".toList, "n1.zstd".toList, "abc123".toList, "d2".toList, 3⟩ ∧
    "abc".toList.isPrefixOf "abc123".toList = true ∧
    "abc".toList.isPrefixOf "abc999".toList = true ∧
    decide (("abc123".toList : FName) = "abc999".toList) = false := by
  refine ⟨by decide, by decide, by decide, by decide, by decide⟩

/-- C6 counterexample: in the code both paths are fatal, not best-effort.
A failing file capture ends the recursive walk with an error before the
next (healthy) file is processed, and a failing orphan removal ends the
reclamation sweep with an error while the remaining orphan is still
present and unprocessed. -/
theorem C6_abort_counterexample :
    saveRecursiveGo hashModel zModel "d".toList
        [WalkEntry.fileEntry ⟨"/a/".toList, "bad".toList⟩ (Except.error "io".toList),
         WalkEntry.fileEntry ⟨"/a/".toList, "good".toList⟩ (Except.ok [1])]
        [] [] = Except.error "io".toList ∧
    cleanupOrphanedFiles [] (fun n => ¬ n = "o1".toList)
        [("o1".toList, [1]), ("o2".toList, [2])]
      = Except.error ("o1".toList, [("o1".toList, [1]), ("o2".toList, [2])]) := by
  constructor
  · rfl
  · rfl

/-- C6 (amended): a per-file failure during the recursive directory walk
aborts the walk at once and propagates, regardless of how many healthy
entries follow; and a per-file deletion failure during the orphan
reclamation sweep aborts the sweep at once and propagates, leaving the
failing orphan and everything after it in place.  (The log-and-continue
best-effort path of the sources is the startup temp-file sweep.) -/
theorem C6_fatal_per_item_errors (hash : Bytes → FName) (z : Bytes → Bytes) (date : FName)
    (pre post : List WalkEntry) (p : FPath) (e : FName) (fs : FS) (recs : List SnapRec)
    (st : FS × List SnapRec)
    (used : List FName) (canRemove : FName → Bool) (pre2 post2 : List (FName × Bytes))
    (n : FName) (b : Bytes) (st2 : List (FName × Bytes))
    (hpre : saveRecursiveGo hash z date pre fs recs = .ok st)
    (hn1 : ¬ n ∈ used) (hn2 : canRemove n = false)
    (hpre2 : cleanupOrphanedFiles used canRemove pre2 = .ok st2) :
    saveRecursiveGo hash z date (pre ++ WalkEntry.fileEntry p (.error e) :: post) fs recs
      = .error e ∧
    cleanupOrphanedFiles used canRemove (pre2 ++ (n, b) :: post2)
      = .error (n, st2 ++ (n, b) :: post2) := by
  constructor
  · clear hpre2 hn1 hn2
    induction pre generalizing fs recs with
    | nil => rfl
    | cons w pre ih =>
      cases w with
      | walkErr e2 => simp [saveRecursiveGo] at hpre
      | dirEntry p2 =>
        rw [List.cons_append]
        exact ih fs recs hpre
      | fileEntry p2 res =>
        cases res with
        | error e2 => simp [saveRecursiveGo] at hpre
        | ok c =>
          rw [List.cons_append]
          exact ih _ _ hpre
  · clear hpre
    induction pre2 generalizing st2 with
    | nil =>
      have hst : st2 = [] := by
        have h2 := hpre2.symm
        simpa [cleanupOrphanedFiles] using h2
      subst hst
      simp [cleanupOrphanedFiles, hn1, hn2]
    | cons w pre2 ih =>
      by_cases hw : w.1 ∈ used
      · cases hrec : cleanupOrphanedFiles used canRemove pre2 with
        | ok stp =>
          have hst : st2 = w :: stp := by
            have h2 := hpre2.symm
            simp only [cleanupOrphanedFiles, hw, if_true, hrec] at h2
            simpa using h2
          subst hst
          rw [List.cons_append]
          simp only [cleanupOrphanedFiles, hw, if_true, ih stp hrec]
          simp
        | error pr =>
          rw [show cleanupOrphanedFiles used canRemove (w :: pre2)
                = (match cleanupOrphanedFiles used canRemove pre2 with
                   | .ok stx => .ok (w :: stx)
                   | .error (nx, stx) => .error (nx, w :: stx)) from by
              simp [cleanupOrphanedFiles, hw]] at hpre2
          rw [hrec] at hpre2
          obtain ⟨nx, stx⟩ := pr
          simp at hpre2
      · by_cases hcr : canRemove w.1 = true
        · have hpre3 : cleanupOrphanedFiles used canRemove pre2 = .ok st2 := by
            rw [show cleanupOrphanedFiles used canRemove (w :: pre2)
                  = cleanupOrphanedFiles used canRemove pre2 from by
                simp [cleanupOrphanedFiles, hw, hcr]] at hpre2
            exact hpre2
          rw [List.cons_append]
          rw [show cleanupOrphanedFiles used canRemove (w :: (pre2 ++ (n, b) :: post2))
                = cleanupOrphanedFiles used canRemove (pre2 ++ (n, b) :: post2) from by
              simp [cleanupOrphanedFiles, hw, hcr]]
          exact ih st2 hpre3
        · rw [show cleanupOrphanedFiles used canRemove (w :: pre2)
                = .error (w.1, w :: pre2) from by
              simp [cleanupOrphanedFiles, hw, hcr]] at hpre2
          simp at hpre2

/-- Witness for the amended C6: an empty prefix before the failing file
entry (walk) and a single kept blob before the failing orphan (sweep). -/
theorem C6_fatal_per_item_errors_witness :
    saveRecursiveGo hashModel zModel "d".toList
        ([] ++ WalkEntry.fileEntry ⟨"/a/".toList, "bad".toList⟩ (Except.error "io".toList)
          :: [WalkEntry.fileEntry ⟨"/a/".toList, "good".toList⟩ (Except.ok [1])]) [] []
      = Except.error "io".toList ∧
    cleanupOrphanedFiles ["keep".toList] (fun n => ¬ n = "o1".toList)
        ([("keep".toList, [3])] ++ ("o1".toList, [1]) :: [("o2".toList, [2])])
      = Except.error ("o1".toList, [("keep".toList, [3])] ++ ("o1".toList, [1]) :: [("o2".toList, [2])]) :=
  C6_fatal_per_item_errors hashModel zModel "d".toList
    [] [WalkEntry.fileEntry ⟨"/a/".toList, "good".toList⟩ (Except.ok [1])]
    ⟨"/a/".toList, "bad".toList⟩ "io".toList [] [] ([], [])
    ["keep".toList] (fun n => ¬ n = "o1".toList)
    [("keep".toList, [3])] [("o2".toList, [2])] "o1".toList [1] [("keep".toList, [3])]
    rfl (by decide) (by decide) rfl

theorem extKind_ne_dirKind : ¬ extKind = dirKind := by decide

theorem fileKind_ne_dirKind : ¬ fileKind = dirKind := by decide

theorem fileKind_ne_extKind : ¬ fileKind = extKind := by decide

/-- C7 counterexample: a directory rule with pattern `node_modules` and a
plain file `/a/node_modules/b.txt` (not a directory).  By the claim's
matching relation — substring containment of the pattern in the path —
the rule matches, so the claim requires `is_excluded` to return true; the
code returns false because its directory rules additionally require
`path.is_dir()`. -/
theorem C7_directory_rule_counterexample :
    isExcludedClaimC7 (some [("node_modules".toList, "directory".toList)])
        ⟨"/a/node_modules/".toList, "b.txt".toList⟩ false = true ∧
    isExcluded (some [("node_modules".toList, "directory".toList)])
        ⟨"/a/node_modules/".toList, "b.txt".toList⟩ false = false := by
  constructor
  · decide
  · decide

/-- C7 (amended): `is_excluded` returns true exactly when some stored
rule matches — a directory rule when the path is a directory and the
pattern is a substring of the path string, an extension rule by
case-sensitive equality of the file's extension with the pattern after
stripping every leading dot, a file rule by equality with the exact base
name — and returns false whenever the rule set is unavailable
(fail-open) or empty. -/
theorem C7_is_excluded_amended (rules : List (FName × FName)) (p : FPath) (isDir : Bool) :
    isExcluded none p isDir = false ∧
    isExcluded (some []) p isDir = false ∧
    (isExcluded (some rules) p isDir = true ↔
      ∃ rule ∈ rules,
        (rule.2 = dirKind ∧ isDir = true ∧ containsSub (p.dir ++ p.base) rule.1 = true) ∨
        (rule.2 = extKind ∧
          ∃ ex, extOf p.base = some ex ∧ ex = rule.1.dropWhile (fun c => c = '.')) ∨
        (rule.2 = fileKind ∧ ¬ p.base = [] ∧ p.base = rule.1)) := by
  refine ⟨rfl, rfl, ?_⟩
  simp only [isExcluded, List.any_eq_true]
  constructor
  · rintro ⟨rule, hr, hpred⟩
    refine ⟨rule, hr, ?_⟩
    by_cases h1 : rule.2 = dirKind
    · left
      simp [h1] at hpred
      exact ⟨h1, hpred.1, hpred.2⟩
    · by_cases h2 : rule.2 = extKind
      · right
        left
        simp [h1, h2, extKind_ne_dirKind] at hpred
        cases hext : extOf p.base with
        | none =>
          rw [hext] at hpred
          simp at hpred
        | some ex =>
          rw [hext] at hpred
          simp at hpred
          exact ⟨h2, ex, rfl, hpred⟩
      · by_cases h3 : rule.2 = fileKind
        · right
          right
          simp [h1, h2, h3, fileKind_ne_dirKind, fileKind_ne_extKind] at hpred
          exact ⟨h3, hpred.1, hpred.2⟩
        · simp [h1, h2, h3] at hpred
  · rintro ⟨rule, hr, hcase⟩
    refine ⟨rule, hr, ?_⟩
    rcases hcase with ⟨h1, hd, hc⟩ | ⟨h2, ex, hext, hex⟩ | ⟨h3, hb, hbn⟩
    · simp [h1, hd, hc]
    · have h1 : ¬ rule.2 = dirKind := by
        rw [h2]
        decide
      simp [h1, h2, hext, hex, extKind_ne_dirKind]
    · have h1 : ¬ rule.2 = dirKind := by
        rw [h3]
        decide
      have h2 : ¬ rule.2 = extKind := by
        rw [h3]
        decide
      simp [h1, h2, h3, hb, hbn, fileKind_ne_dirKind, fileKind_ne_extKind]
      exact hbn ▸ hb

/-- C8: for a single file, `check` reports up-to-date exactly when the
live hash equals the most recent record's checksum — but for a
directory, `check_directory` builds its path-to-checksum map from rows
ordered newest-first with later inserts overwriting earlier ones, so the
oldest row wins.  At this input the file's live content matches the most
recent record, `check` on the single file says up-to-date, yet the
directory check classifies the same file as modified. -/
theorem C8_directory_check_uses_oldest :
    (mostRecentFor
        [⟨2, "/d/f".toList, "n2.zstd".toList, hashModel [1], "2024-02-01".toList, 1⟩,
         ⟨1, "/d/f".toList, "n1.zstd".toList, "old1".toList, "2024-01-01".toList, 1⟩]
        "/d/f".toList).map (fun r => r.checksum) = some (hashModel [1]) ∧
    checkSingleFile hashModel
        [⟨2, "/d/f".toList, "n2.zstd".toList, hashModel [1], "2024-02-01".toList, 1⟩,
         ⟨1, "/d/f".toList, "n1.zstd".toList, "old1".toList, "2024-01-01".toList, 1⟩]
        [1] = CheckResult.upToDate ∧
    (checkDirectory hashModel
        [⟨2, "/d/f".toList, "n2.zstd".toList, hashModel [1], "2024-02-01".toList, 1⟩,
         ⟨1, "/d/f".toList, "n1.zstd".toList, "old1".toList, "2024-01-01".toList, 1⟩]
        [("/d/f".toList, [1])]).statuses = [("/d/f".toList, FileStatus.modifiedF)] ∧
    (checkDirectory hashModel
        [⟨2, "/d/f".toList, "n2.zstd".toList, hashModel [1], "2024-02-01".toList, 1⟩,
         ⟨1, "/d/f".toList, "n1.zstd".toList, "old1".toList, "2024-01-01".toList, 1⟩]
        [("/d/f".toList, [1])]).modifiedN = 1 := by
  refine ⟨by decide, by decide, by decide, by decide⟩

theorem toList_diffHeader : "--- ".toList = ['-', '-', '-', ' '] := by decide

/-- C9: `compute_unified_diff` pushes the `---`/`+++` header lines
unconditionally, so its result is never the empty string — and for two
identical text inputs it returns exactly the two header lines (no hunks,
no added or removed lines).  `compare` therefore never takes its
`diff.is_empty()` branch: on identical inputs it prints the header-only
diff instead of reporting the files as identical. -/
theorem C9_identical_inputs_nonempty_output :
    (∀ oldName newName oldT newT,
      ∃ rest, computeUnifiedDiff oldName newName oldT newT = '-' :: rest) ∧
    computeUnifiedDiff "a".toList "b".toList "x\n".toList "x\n".toList
      = "--- a\n+++ b\n".toList ∧
    compareBytes "a".toList "b".toList [120, 10] [120, 10]
      = CompareOut.diffOut "--- a\n+++ b\n".toList ∧
    decide (compareBytes "a".toList "b".toList [120, 10] [120, 10]
      = CompareOut.identicalMsg) = false := by
  refine ⟨?_, by decide, by decide, by decide⟩
  intro a b c d
  simp only [computeUnifiedDiff, toList_diffHeader, List.cons_append]
  exact ⟨_, rfl⟩
